import Mathlib

/-!
Verification of the `orangey` pseudo-random number generator (src/src/lib.rs).

The generator is a PCG-style 128-bit linear-congruential generator:
`state` and `inc` are `u128`; one raw step is `state = state * MUL + inc`
(wrapping), the 64-bit output is an xor-fold of the two halves of the state
followed by a variable rotate, and `advance` is the closed-form jump-ahead
for the affine recurrence, by binary exponentiation.

Modelling conventions:
* `u128` / `u64` values are `Nat`s; wrapping arithmetic is explicit `% 2 ^ 128`
  (resp. `% 2 ^ 64`).  Rust arithmetic written with `Wrapping` (in `step` and
  `advance`) always wraps; plain `+` / `-` (in `srand`, `peek`, `rand_range`)
  wraps when overflow checks are disabled (release builds) and faults when
  they are enabled.  The primary model below uses the wrapping (release)
  semantics; `srandChecked` / `peekChecked` additionally model the
  checked-overflow semantics of the two plain additions in `srand` and `peek`.
* The `for i in 0..` rejection loop and the `loop` constructs are modelled
  with an explicit fuel parameter, returning `none` when fuel runs out; the
  Rust loops have no iteration cap.
* `f64` values and operations are abstracted by a `FloatOps` record: the
  claims below concern state evolution, integer-level bit manipulation, and
  the exactly-representable values produced by `uniform_double`, none of
  which depend on rounding behaviour.  `f64FromBits` gives the exact rational
  value of a finite IEEE-754 binary64 bit pattern, which is the semantics of
  `f64::from_bits` on the (always finite, always normal) patterns that
  `uniform_double` constructs.
-/

namespace Orangey

/-- The 128-bit generator context: `state` and `inc` fields of `OrangeyCtx`. -/
structure OrangeyCtx where
  state : Nat
  inc : Nat
deriving DecidableEq

/-- The fixed multiplier `MUL` of the LCG. -/
def MUL : Nat := 0x2360ed051fc65da44385df649fccf645

/-- `OrangeyCtx::new()`: the fixed default `state` and `inc` constants. -/
def OrangeyCtx.new : OrangeyCtx :=
  { state := 0xce84809586cf8d1f17e1e9805a1b4141
    inc := 0xb0a3e85a992afe5a280af6fdeecf029f }

/-- `u64::rotate_right`: rotate a 64-bit value right by `n` (`0 ≤ n < 64`). -/
def rotr64 (x n : Nat) : Nat :=
  ((x >>> n) ||| (x <<< (64 - n))) % 2 ^ 64

/-- `output(state)`: xor-fold the high and low halves of the 128-bit state
(`(state >> 64) as u64 ^ state as u64`) and rotate right by the top six
bits of the state (`(state >> 122) as u32`). -/
def output (state : Nat) : Nat :=
  rotr64 (((state >>> 64) % 2 ^ 64) ^^^ (state % 2 ^ 64)) (state >>> 122)

/-- `step()`: one raw LCG update `state = state * MUL + inc`, wrapping. -/
def step (c : OrangeyCtx) : OrangeyCtx :=
  { c with state := (c.state * MUL + c.inc) % 2 ^ 128 }

/-- `rand()`: advance the state one raw step and return `output(state)`. -/
def rand (c : OrangeyCtx) : Nat × OrangeyCtx :=
  let c1 := step c
  (output c1.state, c1)

/-- The body of `advance`'s `while delta > 0` loop.  Each iteration squares
the per-step affine transform (`cur_plus *= cur_mult + 1; cur_mult *= cur_mult`)
and, when the low bit of `delta` is set, folds the current transform into the
accumulator (`acc_mult *= cur_mult; acc_plus = acc_plus * cur_mult + cur_plus`).
The iteration count is the bit length of `delta`, so `fuel = delta` (see
`advance`) always suffices; `fuel` only makes the recursion structural. -/
def advanceLoop : Nat → Nat → Nat → Nat → Nat → Nat → Nat × Nat
  | 0, _, _, _, acc_mult, acc_plus => (acc_mult, acc_plus)
  | fuel + 1, delta, cur_mult, cur_plus, acc_mult, acc_plus =>
    if delta = 0 then (acc_mult, acc_plus)
    else
      let acc_mult2 := if delta &&& 1 ≠ 0 then (acc_mult * cur_mult) % 2 ^ 128 else acc_mult
      let acc_plus2 := if delta &&& 1 ≠ 0 then (acc_plus * cur_mult + cur_plus) % 2 ^ 128 else acc_plus
      advanceLoop fuel (delta / 2) ((cur_mult * cur_mult) % 2 ^ 128)
        ((cur_plus * (cur_mult + 1)) % 2 ^ 128) acc_mult2 acc_plus2

/-- `advance(state, delta, cur_mult, cur_plus)`: closed-form jump of `delta`
raw steps, `acc_mult * state + acc_plus` wrapping. -/
def advance (state delta cur_mult cur_plus : Nat) : Nat :=
  let p := advanceLoop delta delta cur_mult cur_plus 1 0
  (p.1 * state + p.2) % 2 ^ 128

/-- `skip(delta)`: replace `state` with `advance(state, delta, MUL, inc)`. -/
def skip (c : OrangeyCtx) (delta : Nat) : OrangeyCtx :=
  { c with state := advance c.state delta MUL c.inc }

/-- `peek(delta)`: `output(advance(state, delta + 1, MUL, inc))`, with no
assignment to `state` or `inc`.  The `delta + 1` is a plain (non-`Wrapping`)
`u128` addition; here it is modelled with wrapping (release) semantics,
`peekChecked` models the checked semantics. -/
def peek (c : OrangeyCtx) (delta : Nat) : Nat :=
  output (advance c.state ((delta + 1) % 2 ^ 128) MUL c.inc)

/-- Method form of `peek`: the body of `peek` contains no assignment to
`self`, so the receiver is returned unchanged next to the value. -/
def peekSt (c : OrangeyCtx) (delta : Nat) : Nat × OrangeyCtx :=
  (peek c delta, c)

/-- `peek(delta)` under enabled overflow checks: the plain `delta + 1`
faults (returns `none`) when `delta = 2^128 - 1`. -/
def peekChecked (c : OrangeyCtx) (delta : Nat) : Option Nat :=
  if delta + 1 < 2 ^ 128 then some (peek c delta) else none

/-- `srand(initstate, initseq)`: `state = 0; inc = (initseq << 1) | 1;
step(); state += initstate; step()`.  The `<<` silently discards the top
bit of `initseq`; the `state += initstate` is a plain addition, modelled
here with wrapping (release) semantics (`srandChecked` models the checked
semantics). -/
def srand (c : OrangeyCtx) (initstate initseq : Nat) : OrangeyCtx :=
  let c1 := step { c with state := 0, inc := ((initseq <<< 1) % 2 ^ 128) ||| 1 }
  step { c1 with state := (c1.state + initstate) % 2 ^ 128 }

/-- `srand(initstate, initseq)` under enabled overflow checks: the plain
`state += initstate` faults (returns `none`) when the sum reaches `2^128`. -/
def srandChecked (c : OrangeyCtx) (initstate initseq : Nat) : Option OrangeyCtx :=
  let c1 := step { c with state := 0, inc := ((initseq <<< 1) % 2 ^ 128) ||| 1 }
  if c1.state + initstate < 2 ^ 128 then
    some (step { c1 with state := c1.state + initstate })
  else none

/-- `u64::wrapping_sub`, for operands below `2 ^ 64`. -/
def sub64 (a b : Nat) : Nat := (a + 2 ^ 64 - b) % 2 ^ 64

/-- `u64::count_ones`. -/
def count_ones64 (n : Nat) : Nat :=
  (List.range 64).countP fun i => n.testBit i

/-- The `for i in 0..` rejection loop of `rand_range`: peek successive
future outputs until one is `>= limit`; `none` when `fuel` runs out (the
Rust loop is uncapped). -/
def rand_range_loop (c : OrangeyCtx) (limit : Nat) : Nat → Nat → Option Nat
  | 0, _ => none
  | fuel + 1, i =>
    let r := peek c i
    if limit ≤ r then some r else rand_range_loop c limit fuel (i + 1)

/-- `rand_range(start..stop)`: degenerate range returns `start`; a
power-of-two width uses `(rand() & (width - 1)) + start`; otherwise
rejection-sample with `limit = width.wrapping_neg() % width`, peeking
successive future outputs, then return `r % width + start`.  Note that on
the rejection path the source never writes to `state`: the accepted draw is
produced by `peek` and the context is returned unchanged. -/
def rand_range (fuel : Nat) (c : OrangeyCtx) (start stop : Nat) :
    Option (Nat × OrangeyCtx) :=
  let distance := sub64 stop start
  if stop = start then some (start, c)
  else if count_ones64 distance = 1 then
    let p := rand c
    some (((p.1 &&& (distance - 1)) + start) % 2 ^ 64, p.2)
  else
    let limit := sub64 0 distance % distance
    (rand_range_loop c limit fuel 0).map fun r => ((r % distance + start) % 2 ^ 64, c)

/-- `0x000FFFFFFFFFFFFF`, the significand mask of `uniform_double`. -/
def MASK : Nat := 0x000FFFFFFFFFFFFF

/-- `0x3FF0000000000000`, the exponent bits of `1.0`. -/
def S_EXP : Nat := 0x3FF0000000000000

/-- Abstract interface for the `f64` operations used by the samplers.  The
claims below do not depend on IEEE rounding behaviour, only on how the
samplers drive the generator state, so `f64` is kept abstract; `QF` below
instantiates it with exact rational values for the bit patterns
`uniform_double` constructs. -/
structure FloatOps (F : Type) where
  lit0 : F
  lit1 : F
  litNeg2 : F
  fromBits : Nat → F
  ofU64 : Nat → F
  ofI32 : Int → F
  sub : F → F → F
  mul : F → F → F
  div : F → F → F
  neg : F → F
  ln : F → F
  sqrt : F → F
  exp : F → F
  exp2 : F → F
  beq : F → F → Bool
  lt : F → F → Bool

/-- `uniform_double()`: draw one raw value, mask to the low 52 bits, OR in
the exponent bits of `1.0`, reinterpret as `f64` and subtract `1.0`. -/
def uniform_double {F : Type} (Φ : FloatOps F) (c : OrangeyCtx) : F × OrangeyCtx :=
  let p := rand c
  (Φ.sub (Φ.fromBits ((p.1 &&& MASK) ||| S_EXP)) Φ.lit1, p.2)

/-- `peek_uniform_double(delta)`: copy the generator, `skip(delta)` the
copy, run `uniform_double` on the copy and discard it; the receiver is
returned unchanged. -/
def peek_uniform_double {F : Type} (Φ : FloatOps F) (c : OrangeyCtx) (delta : Nat) :
    F × OrangeyCtx :=
  ((uniform_double Φ (skip c delta)).1, c)

/-- `u64::leading_zeros`: 64 minus the bit length. -/
def clz64 (n : Nat) : Nat :=
  64 - (List.range 64).countP fun i => decide (2 ^ i ≤ n)

/-- Result of the draw loop of `all_doubles`: either the early
`return 0.0` (exponent exhausted) or the first nonzero significand. -/
inductive ADraw where
  | retZero
  | found (significand : Nat)
deriving DecidableEq

/-- The `loop` of `all_doubles`: decrement `exponent` by 64, return `0.0`
once it falls below `-1074`, otherwise draw; exit on a nonzero draw.  The
loop runs at most 16 iterations before the `-1074` cap, so any
`fuel ≥ 17` is exact. -/
def all_doubles_loop : Nat → Int → OrangeyCtx → Option (ADraw × Int × OrangeyCtx)
  | 0, _, _ => none
  | fuel + 1, exponent, c =>
    let exponent := exponent - 64
    if exponent < -1074 then some (.retZero, exponent, c)
    else
      let p := rand c
      if p.1 ≠ 0 then some (.found p.1, exponent, p.2)
      else all_doubles_loop fuel exponent p.2

/-- The integer result of `all_doubles`: either the `0.0` return, or the
final `(significand, exponent)` pair from which the `f64` result is
computed as `significand as f64 * (exponent as f64).exp2()`. -/
inductive AllDblOut where
  | zero
  | sig (significand : Nat) (exponent : Int)
deriving DecidableEq

/-- The integer computation of `all_doubles()`: run the draw loop from
`exponent = -64`, then normalise: count leading zeros, shift the
significand up, pull the vacated low bits from `peek(1)`, adjust the
exponent, and force the least-significant bit to 1. -/
def all_doubles_core (fuel : Nat) (c : OrangeyCtx) : Option (AllDblOut × OrangeyCtx) :=
  (all_doubles_loop fuel (-64) c).map fun r =>
    match r with
    | (.retZero, _, c1) => (.zero, c1)
    | (.found significand, exponent, c1) =>
      let shift := clz64 significand
      let significand2 :=
        if shift ≠ 0 then
          ((significand <<< shift) % 2 ^ 64) ||| (peek c1 1 >>> (64 - shift))
        else significand
      let exponent2 := if shift ≠ 0 then exponent - shift else exponent
      (.sig (significand2 ||| 1) exponent2, c1)

/-- `all_doubles()`: the integer computation followed by the float
conversion `significand as f64 * (exponent as f64).exp2()`. -/
def all_doubles {F : Type} (Φ : FloatOps F) (fuel : Nat) (c : OrangeyCtx) :
    Option (F × OrangeyCtx) :=
  (all_doubles_core fuel c).map fun r =>
    match r with
    | (.zero, c1) => (Φ.lit0, c1)
    | (.sig s e, c1) => (Φ.mul (Φ.ofU64 s) (Φ.exp2 (Φ.ofI32 e)), c1)

/-- The `loop` of `gaussian`: draw `uniform_double` until it is `!= 0.0`. -/
def gaussian_loop {F : Type} (Φ : FloatOps F) : Nat → OrangeyCtx → Option (F × OrangeyCtx)
  | 0, _ => none
  | fuel + 1, c =>
    let p := uniform_double Φ c
    if Φ.beq p.1 Φ.lit0 then gaussian_loop Φ fuel p.2 else some p

/-- `gaussian()`: Box-Muller variant,
`peek_uniform_double(1) * (-2.0 * rsq.ln() / rsq).sqrt()`. -/
def gaussian {F : Type} (Φ : FloatOps F) (fuel : Nat) (c : OrangeyCtx) :
    Option (F × OrangeyCtx) :=
  (gaussian_loop Φ fuel c).map fun p =>
    (Φ.mul (peek_uniform_double Φ p.2 1).1
      (Φ.sqrt (Φ.div (Φ.mul Φ.litNeg2 (Φ.ln p.1)) p.1)), p.2)

/-- The `while x > em` loop of `poisson`: note the loop peeks delta 1 on
the same (unchanged) state each iteration. -/
def poisson_loop {F : Type} (Φ : FloatOps F) (c : OrangeyCtx) (em : F) :
    Nat → F → Nat → Option Nat
  | 0, _, _ => none
  | fuel + 1, x, n =>
    if Φ.lt em x then
      poisson_loop Φ c em fuel (Φ.mul x (peek_uniform_double Φ c 1).1) (n + 1)
    else some n

/-- `poisson(ev)`: Knuth's algorithm with `em = (-ev).exp()` and one real
`uniform_double` draw. -/
def poisson {F : Type} (Φ : FloatOps F) (fuel : Nat) (c : OrangeyCtx) (ev : F) :
    Option (Nat × OrangeyCtx) :=
  let em := Φ.exp (Φ.neg ev)
  let p := uniform_double Φ c
  (poisson_loop Φ p.2 em fuel p.1 0).map fun n => (n, p.2)

/-- `peek_range(delta, range)`: copy, `skip(delta)`, `rand_range` on the
copy, discard the copy; the receiver is returned unchanged. -/
def peek_range (fuel : Nat) (c : OrangeyCtx) (delta : Nat) (start stop : Nat) :
    Option Nat × OrangeyCtx :=
  ((rand_range fuel (skip c delta) start stop).map Prod.fst, c)

/-- `peek_all_doubles(delta)`: copy, `skip(delta)`, `all_doubles` on the
copy, discard the copy. -/
def peek_all_doubles {F : Type} (Φ : FloatOps F) (fuel : Nat) (c : OrangeyCtx)
    (delta : Nat) : Option F × OrangeyCtx :=
  ((all_doubles Φ fuel (skip c delta)).map Prod.fst, c)

/-- `peek_gaussian(delta)`: copy, `skip(delta)`, `gaussian` on the copy,
discard the copy. -/
def peek_gaussian {F : Type} (Φ : FloatOps F) (fuel : Nat) (c : OrangeyCtx)
    (delta : Nat) : Option F × OrangeyCtx :=
  ((gaussian Φ fuel (skip c delta)).map Prod.fst, c)

/-- `peek_poisson(delta, ev)`: copy, `skip(delta)`, `poisson` on the copy,
discard the copy. -/
def peek_poisson {F : Type} (Φ : FloatOps F) (fuel : Nat) (c : OrangeyCtx)
    (delta : Nat) (ev : F) : Option Nat × OrangeyCtx :=
  ((poisson Φ fuel (skip c delta) ev).map Prod.fst, c)

/-- The exact rational value of a finite IEEE-754 binary64 bit pattern
(sign bit, 11 exponent bits, 52 significand bits); this is the semantics of
`f64::from_bits` for finite values.  Patterns with exponent field 2047
(infinities and NaNs) are outside the model; every pattern built by
`uniform_double` has exponent field 1023. -/
def f64FromBits (b : Nat) : ℚ :=
  let sign : Nat := b >>> 63
  let e : Nat := (b >>> 52) % 2 ^ 11
  let m : Nat := b % 2 ^ 52
  let mag : ℚ :=
    if e = 0 then (m : ℚ) / 2 ^ 1074 else ((2 ^ 52 + m : Nat) : ℚ) / 2 ^ (1075 - e)
  if sign = 0 then mag else -mag

/-- Exact-rational instantiation of the float interface, enough to give
`uniform_double` its exact value: the bit pattern it builds encodes a
value `v ∈ [1, 2)`, and `v - 1.0` is exactly representable (it is
`m * 2 ^ (-52)` with `m < 2 ^ 52`), so IEEE subtraction is exact and plain
rational subtraction is the faithful semantics.  The transcendental
operations (unused by `uniform_double`) are given dummy values. -/
def QF : FloatOps ℚ where
  lit0 := 0
  lit1 := 1
  litNeg2 := -2
  fromBits := f64FromBits
  ofU64 := fun n => (n : ℚ)
  ofI32 := fun i => (i : ℚ)
  sub := fun a b => a - b
  mul := fun a b => a * b
  div := fun a b => a / b
  neg := fun a => -a
  ln := fun _ => 0
  sqrt := fun _ => 0
  exp := fun _ => 0
  exp2 := fun _ => 0
  beq := fun a b => a == b
  lt := fun a b => a < b

/-- `n` iterations of `step()`. -/
def stepN (n : Nat) (c : OrangeyCtx) : OrangeyCtx := step^[n] c

/-- `n` iterations of the affine map `s ↦ (a * s + b) % 2 ^ 128`: the
mathematical meaning of `n` consecutive raw steps, used as the reference
against which `advance` is verified. -/
def affineIter (a b : Nat) : Nat → Nat → Nat
  | 0, s => s
  | n + 1, s => affineIter a b n ((a * s + b) % 2 ^ 128)

/-- One squaring of an affine map `(mult, plus)`, exactly as in the body
of `advance`'s loop. -/
def dbl (p : Nat × Nat) : Nat × Nat :=
  ((p.1 * p.1) % 2 ^ 128, (p.2 * (p.1 + 1)) % 2 ^ 128)

/-- Generator contexts reachable through the public API: construction,
reseed, and every state-mutating sampler (the peek variants return the
receiver unchanged and cannot produce new contexts). -/
inductive Reachable : OrangeyCtx → Prop where
  | new : Reachable OrangeyCtx.new
  | srand (c : OrangeyCtx) (s q : Nat) : Reachable c → Reachable (srand c s q)
  | rand (c : OrangeyCtx) : Reachable c → Reachable (rand c).2
  | skip (c : OrangeyCtx) (d : Nat) : Reachable c → Reachable (skip c d)
  | rand_range (fuel : Nat) (c : OrangeyCtx) (a b v : Nat) (c2 : OrangeyCtx) :
      Reachable c → rand_range fuel c a b = some (v, c2) → Reachable c2
  | uniform_double {F : Type} (Φ : FloatOps F) (c : OrangeyCtx) :
      Reachable c → Reachable (uniform_double Φ c).2
  | all_doubles {F : Type} (Φ : FloatOps F) (fuel : Nat) (c : OrangeyCtx) (v : F)
      (c2 : OrangeyCtx) :
      Reachable c → all_doubles Φ fuel c = some (v, c2) → Reachable c2
  | gaussian {F : Type} (Φ : FloatOps F) (fuel : Nat) (c : OrangeyCtx) (v : F)
      (c2 : OrangeyCtx) :
      Reachable c → gaussian Φ fuel c = some (v, c2) → Reachable c2
  | poisson {F : Type} (Φ : FloatOps F) (fuel : Nat) (c : OrangeyCtx) (ev : F)
      (n : Nat) (c2 : OrangeyCtx) :
      Reachable c → poisson Φ fuel c ev = some (n, c2) → Reachable c2

/-! ### Helper lemmas: the affine-map algebra behind `advance` -/

theorem ctx_ext {a b : OrangeyCtx} (h1 : a.state = b.state) (h2 : a.inc = b.inc) :
    a = b := by
  cases a; cases b; simp_all

theorem affineIter_succ (a b n s : Nat) :
    affineIter a b (n + 1) s = affineIter a b n ((a * s + b) % 2 ^ 128) := rfl

theorem affine_absorb (a b x : Nat) :
    (a * (x % 2 ^ 128) + b) % 2 ^ 128 = (a * x + b) % 2 ^ 128 :=
  Nat.ModEq.add_right b ((Nat.mod_modEq x (2 ^ 128)).mul_left a)

theorem affine_sq (a b x : Nat) :
    (a * ((a * x + b) % 2 ^ 128) + b) % 2 ^ 128
      = (a * a % 2 ^ 128 * x + b * (a + 1) % 2 ^ 128) % 2 ^ 128 := by
  have h2 : (a * a % 2 ^ 128 * x + b * (a + 1) % 2 ^ 128) % 2 ^ 128
      = (a * a * x + b * (a + 1)) % 2 ^ 128 :=
    Nat.ModEq.add ((Nat.mod_modEq (a * a) (2 ^ 128)).mul_right x)
      (Nat.mod_modEq (b * (a + 1)) (2 ^ 128))
  rw [affine_absorb, h2]
  congr 1
  ring

theorem affine_acc (a b am ap s : Nat) :
    (am * a % 2 ^ 128 * s + (ap * a + b) % 2 ^ 128) % 2 ^ 128
      = (a * ((am * s + ap) % 2 ^ 128) + b) % 2 ^ 128 := by
  have h2 : (am * a % 2 ^ 128 * s + (ap * a + b) % 2 ^ 128) % 2 ^ 128
      = (am * a * s + (ap * a + b)) % 2 ^ 128 :=
    Nat.ModEq.add ((Nat.mod_modEq (am * a) (2 ^ 128)).mul_right s)
      (Nat.mod_modEq (ap * a + b) (2 ^ 128))
  rw [h2, affine_absorb]
  congr 1
  ring

theorem affineIter_double (k a b : Nat) : ∀ x : Nat,
    affineIter a b (2 * k) x
      = affineIter (a * a % 2 ^ 128) (b * (a + 1) % 2 ^ 128) k x := by
  induction k with
  | zero => intro x; rfl
  | succ k ih =>
    intro x
    have h : 2 * (k + 1) = 2 * k + 1 + 1 := by ring
    rw [h, affineIter_succ, affineIter_succ, ih, affine_sq]
    rfl

theorem advanceLoop_spec : ∀ (fuel delta a b am ap s : Nat), delta < 2 ^ fuel →
    ((advanceLoop fuel delta a b am ap).1 * s + (advanceLoop fuel delta a b am ap).2)
        % 2 ^ 128
      = affineIter a b delta ((am * s + ap) % 2 ^ 128) := by
  intro fuel
  induction fuel with
  | zero =>
    intro delta a b am ap s h
    have h0 : delta = 0 := by simpa using h
    subst h0
    rfl
  | succ fuel ih =>
    intro delta a b am ap s h
    by_cases h0 : delta = 0
    · subst h0
      simp [advanceLoop]
      rfl
    · have hd2 : delta / 2 < 2 ^ fuel := by
        have hp : (2 : Nat) ^ (fuel + 1) = 2 ^ fuel * 2 := by ring
        rw [hp] at h
        omega
      have hand : delta &&& 1 = delta % 2 := Nat.and_one_is_mod delta
      rw [advanceLoop]
      simp only [if_neg h0, hand]
      by_cases hodd : delta % 2 = 0
      · have hsplit : 2 * (delta / 2) = delta := by omega
        simp only [hodd, ne_eq, not_true_eq_false, if_false, ite_false]
        rw [ih (delta / 2) _ _ am ap s hd2, ← affineIter_double, hsplit]
      · have h1 : delta % 2 = 1 := by omega
        have hsplit : delta = 2 * (delta / 2) + 1 := by omega
        simp only [hodd, ne_eq, not_false_eq_true, if_true, ite_true]
        rw [ih (delta / 2) _ _ _ _ s hd2, affine_acc, hsplit, affineIter_succ,
          affineIter_double]
        have hdd : (2 * (delta / 2) + 1) / 2 = delta / 2 := by omega
        rw [hdd]

theorem advance_eq_affineIter (state delta a b : Nat) :
    advance state delta a b = affineIter a b delta (state % 2 ^ 128) := by
  have h := advanceLoop_spec delta delta a b 1 0 state (Nat.lt_two_pow delta)
  simpa [advance] using h

theorem stepN_inc (n : Nat) : ∀ c : OrangeyCtx, (stepN n c).inc = c.inc := by
  induction n with
  | zero => intro c; rfl
  | succ n ih =>
    intro c
    show (step^[n + 1] c).inc = c.inc
    rw [Function.iterate_succ_apply]
    exact ih (step c)

theorem stepN_state (n : Nat) : ∀ c : OrangeyCtx,
    (stepN n c).state = affineIter MUL c.inc n c.state := by
  induction n with
  | zero => intro c; rfl
  | succ n ih =>
    intro c
    show (step^[n + 1] c).state = _
    rw [Function.iterate_succ_apply, affineIter_succ]
    have h := ih (step c)
    rw [stepN] at h
    rw [h]
    show affineIter MUL c.inc n ((c.state * MUL + c.inc) % 2 ^ 128) = _
    rw [Nat.mul_comm c.state MUL]

/-- **C1.** `skip(delta)` replaces the state with exactly the state that
`delta` consecutive `step()` applications produce, bit for bit under
`2 ^ 128` wraparound; hence `skip(k)` followed by `rand()` yields the same
64-bit value as calling `rand()` `k + 1` times from the original state,
and `skip(0)` leaves the generator unchanged. -/
theorem skip_eq_iterated_step (c : OrangeyCtx) (k : Nat) (hs : c.state < 2 ^ 128) :
    skip c k = stepN k c ∧
    (rand (skip c k)).1 = (rand ((fun x => (rand x).2)^[k] c)).1 ∧
    skip c 0 = c := by
  have hmain : skip c k = stepN k c := by
    refine ctx_ext ?_ ?_
    · show advance c.state k MUL c.inc = _
      rw [advance_eq_affineIter, Nat.mod_eq_of_lt hs, stepN_state]
    · exact (stepN_inc k c).symm
  refine ⟨hmain, ?_, ?_⟩
  · have hiter : (fun x => (rand x).2)^[k] c = stepN k c := rfl
    rw [hiter, hmain]
  · refine ctx_ext ?_ rfl
    show advance c.state 0 MUL c.inc = c.state
    rw [advance_eq_affineIter]
    exact Nat.mod_eq_of_lt hs

/-- Witness for `skip_eq_iterated_step` at the default generator, `k = 5`. -/
theorem skip_eq_iterated_step_witness :
    OrangeyCtx.new.state < 2 ^ 128 ∧
      (skip OrangeyCtx.new 5 = stepN 5 OrangeyCtx.new ∧
        (rand (skip OrangeyCtx.new 5)).1
          = (rand ((fun x => (rand x).2)^[5] OrangeyCtx.new)).1 ∧
        skip OrangeyCtx.new 0 = OrangeyCtx.new) :=
  ⟨by decide, skip_eq_iterated_step OrangeyCtx.new 5 (by decide)⟩

/-! ### The affine map has order dividing `2 ^ 128`

For any odd multiplier `a` and arbitrary increment `b`, `2 ^ 128` raw steps
return every state to itself: writing the `2 ^ k`-fold composite as an
affine map by repeated squaring (exactly `advance`'s doubling), its
multiplier is `≡ 1 (mod 2 ^ (k + 1))` and its increment is divisible by
`2 ^ k`, because each squaring gains one factor of two in both.  This
settles `peek`'s behaviour at `delta = 2 ^ 128 - 1`, where the wrapped
`delta + 1` is `0`. -/

theorem affineIter_pow_dbl : ∀ (k a b x : Nat),
    affineIter a b (2 ^ k) x
      = ((dbl^[k] (a, b)).1 * x + (dbl^[k] (a, b)).2) % 2 ^ 128 := by
  intro k
  induction k with
  | zero => intro a b x; rfl
  | succ k ih =>
    intro a b x
    have h2 : (2 : Nat) ^ (k + 1) = 2 * 2 ^ k := by ring
    rw [h2, affineIter_double, ih, Function.iterate_succ_apply]
    rfl

theorem dbl_iterate_lt (p : Nat × Nat) (k : Nat) (hk : k ≠ 0) :
    (dbl^[k] p).1 < 2 ^ 128 ∧ (dbl^[k] p).2 < 2 ^ 128 := by
  obtain ⟨k, rfl⟩ := Nat.exists_eq_succ_of_ne_zero hk
  rw [Function.iterate_succ_apply']
  exact ⟨Nat.mod_lt _ (by norm_num), Nat.mod_lt _ (by norm_num)⟩

theorem dbl_iterate_invariant (a b : Nat) (ha : a % 2 = 1) :
    ∀ k, k ≤ 127 →
      (dbl^[k] (a, b)).1 % 2 ^ (k + 1) = 1 % 2 ^ (k + 1) ∧
      2 ^ k ∣ (dbl^[k] (a, b)).2 := by
  intro k
  induction k with
  | zero =>
    intro _
    refine ⟨?_, one_dvd _⟩
    simpa using ha
  | succ k ih =>
    intro hk
    obtain ⟨hA, hB⟩ := ih (by omega)
    have hfst : (dbl^[k + 1] (a, b)).1
        = (dbl^[k] (a, b)).1 * (dbl^[k] (a, b)).1 % 2 ^ 128 := by
      rw [Function.iterate_succ_apply']
      rfl
    have hsnd : (dbl^[k + 1] (a, b)).2
        = (dbl^[k] (a, b)).2 * ((dbl^[k] (a, b)).1 + 1) % 2 ^ 128 := by
      rw [Function.iterate_succ_apply']
      rfl
    have hone : (1 : Nat) % 2 ^ (k + 1) = 1 :=
      Nat.mod_eq_of_lt (Nat.one_lt_two_pow_iff.2 (by omega))
    have hApos : 1 ≤ (dbl^[k] (a, b)).1 := by
      rcases Nat.eq_zero_or_pos (dbl^[k] (a, b)).1 with h0 | h1
      · rw [h0] at hA
        simp [hone] at hA
      · exact h1
    have hAmodeq : Nat.ModEq (2 ^ (k + 1)) (dbl^[k] (a, b)).1 1 := hA
    have hdvd1 : 2 ^ (k + 1) ∣ (dbl^[k] (a, b)).1 - 1 :=
      (Nat.modEq_iff_dvd' hApos).1 hAmodeq.symm
    have hAodd : (dbl^[k] (a, b)).1 % 2 = 1 := by
      have h2d : (2 : Nat) ∣ 2 ^ (k + 1) := dvd_pow_self 2 (Nat.succ_ne_zero k)
      have := Nat.ModEq.of_dvd h2d hAmodeq
      simpa [Nat.ModEq] using this
    have h2dvd : (2 : Nat) ∣ (dbl^[k] (a, b)).1 + 1 := by omega
    constructor
    · -- the multiplier: squaring gains one factor of two
      obtain ⟨a0, ha0⟩ := Nat.exists_eq_add_of_le hApos
      have hfact : ((dbl^[k] (a, b)).1 - 1) * ((dbl^[k] (a, b)).1 + 1)
          = (dbl^[k] (a, b)).1 * (dbl^[k] (a, b)).1 - 1 := by
        rw [ha0]
        have hsq : (1 + a0) * (1 + a0) = a0 * (a0 + 2) + 1 := by ring
        have hlin : 1 + a0 - 1 = a0 := by omega
        rw [hlin, hsq, Nat.add_sub_cancel]
        ring
      have hsqdvd : 2 ^ (k + 2) ∣ (dbl^[k] (a, b)).1 * (dbl^[k] (a, b)).1 - 1 := by
        rw [← hfact]
        have := mul_dvd_mul hdvd1 h2dvd
        rwa [← pow_succ] at this
      have hge1 : 1 ≤ (dbl^[k] (a, b)).1 * (dbl^[k] (a, b)).1 :=
        Nat.one_le_iff_ne_zero.2 (by positivity)
      have hsqmod : Nat.ModEq (2 ^ (k + 2)) ((dbl^[k] (a, b)).1 * (dbl^[k] (a, b)).1) 1 :=
        ((Nat.modEq_iff_dvd' hge1).2 hsqdvd).symm
      have hmodM : Nat.ModEq (2 ^ (k + 2))
          ((dbl^[k] (a, b)).1 * (dbl^[k] (a, b)).1 % 2 ^ 128)
          ((dbl^[k] (a, b)).1 * (dbl^[k] (a, b)).1) :=
        Nat.ModEq.of_dvd (pow_dvd_pow 2 (by omega))
          (Nat.mod_modEq ((dbl^[k] (a, b)).1 * (dbl^[k] (a, b)).1) (2 ^ 128))
      rw [hfst]
      exact hmodM.trans hsqmod
    · -- the increment: one more factor of two
      rw [hsnd]
      have hdvd : 2 ^ (k + 1) ∣ (dbl^[k] (a, b)).2 * ((dbl^[k] (a, b)).1 + 1) := by
        have := mul_dvd_mul hB h2dvd
        rwa [← pow_succ] at this
      exact (Nat.dvd_mod_iff (pow_dvd_pow 2 (by omega))).2 hdvd

theorem affineIter_order (b s : Nat) (hs : s < 2 ^ 128) :
    affineIter MUL b (2 ^ 128) s = s := by
  rw [affineIter_pow_dbl]
  obtain ⟨hA, hB⟩ := dbl_iterate_invariant MUL b (by decide) 127 (le_refl 127)
  obtain ⟨hAlt, _⟩ := dbl_iterate_lt (MUL, b) 127 (by omega)
  have hA1 : (dbl^[127] (MUL, b)).1 = 1 := by
    rw [Nat.mod_eq_of_lt hAlt] at hA
    rw [hA]
    exact Nat.mod_eq_of_lt (by norm_num)
  have hfst : (dbl^[128] (MUL, b)).1
      = (dbl^[127] (MUL, b)).1 * (dbl^[127] (MUL, b)).1 % 2 ^ 128 := by
    rw [show (128 : Nat) = 127 + 1 from rfl, Function.iterate_succ_apply']
    rfl
  have hsnd : (dbl^[128] (MUL, b)).2
      = (dbl^[127] (MUL, b)).2 * ((dbl^[127] (MUL, b)).1 + 1) % 2 ^ 128 := by
    rw [show (128 : Nat) = 127 + 1 from rfl, Function.iterate_succ_apply']
    rfl
  obtain ⟨t, ht⟩ := hB
  have hzero : (dbl^[128] (MUL, b)).2 = 0 := by
    rw [hsnd, hA1, ht]
    have : 2 ^ 127 * t * (1 + 1) = 2 ^ 128 * t := by ring
    rw [this, Nat.mul_mod_right]
  have hone : (dbl^[128] (MUL, b)).1 = 1 := by
    rw [hfst, hA1]
    norm_num
  rw [hone, hzero, one_mul, add_zero]
  exact Nat.mod_eq_of_lt hs

theorem peek_eq_stepN (c : OrangeyCtx) (d : Nat) (hs : c.state < 2 ^ 128)
    (hd : d < 2 ^ 128) :
    peek c d = output ((stepN (d + 1) c).state) := by
  unfold peek
  rw [stepN_state]
  by_cases hcase : d + 1 < 2 ^ 128
  · rw [Nat.mod_eq_of_lt hcase, advance_eq_affineIter, Nat.mod_eq_of_lt hs]
  · have heq : d + 1 = 2 ^ 128 := by omega
    rw [heq, Nat.mod_self, advance_eq_affineIter, affineIter_order _ _ hs]
    show output (c.state % 2 ^ 128) = output c.state
    rw [Nat.mod_eq_of_lt hs]

/-- **C3.** For every state and every 128-bit `delta`, `peek(delta)`
returns `output` of the state that `delta + 1` raw steps would produce
from the current state (at `delta = 2 ^ 128 - 1` the wrapped `delta + 1`
jumps `0` steps, which agrees with `2 ^ 128` raw steps because the affine
step map has order dividing `2 ^ 128`); `peek(0)` equals the value the
next `rand()` call would return; and `peek` leaves `state` and `inc`
unchanged. -/
theorem peek_correct (c : OrangeyCtx) (delta : Nat) (hs : c.state < 2 ^ 128)
    (hd : delta < 2 ^ 128) :
    peek c delta = output ((stepN (delta + 1) c).state) ∧
    peek c 0 = (rand c).1 ∧
    peekSt c delta = (peek c delta, c) := by
  refine ⟨peek_eq_stepN c delta hs hd, ?_, rfl⟩
  rw [peek_eq_stepN c 0 hs (by norm_num)]
  rfl

/-- Witness for `peek_correct` at the default generator, `delta = 7`. -/
theorem peek_correct_witness :
    (OrangeyCtx.new.state < 2 ^ 128 ∧ (7 : Nat) < 2 ^ 128) ∧
      (peek OrangeyCtx.new 7 = output ((stepN 8 OrangeyCtx.new).state) ∧
        peek OrangeyCtx.new 0 = (rand OrangeyCtx.new).1 ∧
        peekSt OrangeyCtx.new 7 = (peek OrangeyCtx.new 7, OrangeyCtx.new)) :=
  ⟨⟨by decide, by decide⟩, peek_correct OrangeyCtx.new 7 (by decide) (by decide)⟩

/-! ### srand, rand_range and the peek wrappers -/

/-- **C10.** The `<<` in `inc = (initseq << 1) | 1` discards the top bit
of `initseq`: reseeding with `initseq + 2 ^ 127 (mod 2 ^ 128)` produces a
generator identical to reseeding with `initseq`, hence identical output
streams. -/
theorem srand_ignores_initseq_top_bit (c : OrangeyCtx) (s q : Nat) :
    srand c s ((q + 2 ^ 127) % 2 ^ 128) = srand c s q := by
  unfold srand
  have hs1 : ∀ x : Nat, x <<< 1 = x * 2 := fun x => by
    rw [Nat.shiftLeft_eq, pow_one]
  have h : (((q + 2 ^ 127) % 2 ^ 128) <<< 1) % 2 ^ 128 = (q <<< 1) % 2 ^ 128 := by
    rw [hs1, hs1]
    have h1 : Nat.ModEq (2 ^ 128) ((q + 2 ^ 127) % 2 ^ 128 * 2)
        ((q + 2 ^ 127) * 2) :=
      (Nat.mod_modEq (q + 2 ^ 127) (2 ^ 128)).mul_right 2
    have h2 : (q + 2 ^ 127) * 2 = q * 2 + 2 ^ 128 := by omega
    calc ((q + 2 ^ 127) % 2 ^ 128 * 2) % 2 ^ 128
        = ((q + 2 ^ 127) * 2) % 2 ^ 128 := h1
      _ = (q * 2 + 2 ^ 128) % 2 ^ 128 := by rw [h2]
      _ = (q * 2) % 2 ^ 128 := Nat.add_mod_right _ _
  rw [h]

/-- **C2** (refuted: code bug).  On the rejection-sampling path
`rand_range` never writes to `state`: the accepted draw is produced by
`peek` and the loop only advances the local peek index.  With the default
generator and the non-power-of-two range `0..10`, the first peek
(`18017628057179154148 ≥ limit = 6`) is accepted, the call returns
`8` together with a context identical to the input — zero raw steps were
consumed, where the claim requires the accepted draw to be consumed — and
therefore an immediate second call returns `8` again. -/
theorem rand_range_rejection_consumes_nothing :
    rand_range 1 OrangeyCtx.new 0 10 = some (8, OrangeyCtx.new) ∧
    (rand_range 1 OrangeyCtx.new 0 10).bind (fun p => rand_range 1 p.2 0 10)
      = some (8, OrangeyCtx.new) := by
  constructor
  · decide
  · decide

/-- **C7.** Every peek sampler duplicates the generator, skips the
duplicate and samples from the duplicate: the receiver is returned
unchanged, and running the real sampler after any peek gives exactly what
it would have given with no peek. -/
theorem peek_samplers_do_not_mutate {F : Type} (Φ : FloatOps F) (fuel : Nat)
    (c : OrangeyCtx) (delta start stop : Nat) (ev : F) :
    (peek_range fuel c delta start stop).2 = c ∧
    (peek_uniform_double Φ c delta).2 = c ∧
    (peek_all_doubles Φ fuel c delta).2 = c ∧
    (peek_gaussian Φ fuel c delta).2 = c ∧
    (peek_poisson Φ fuel c delta ev).2 = c ∧
    rand_range fuel (peek_range fuel c delta start stop).2 start stop
      = rand_range fuel c start stop ∧
    uniform_double Φ (peek_uniform_double Φ c delta).2 = uniform_double Φ c ∧
    all_doubles Φ fuel (peek_all_doubles Φ fuel c delta).2
      = all_doubles Φ fuel c ∧
    gaussian Φ fuel (peek_gaussian Φ fuel c delta).2 = gaussian Φ fuel c ∧
    poisson Φ fuel (peek_poisson Φ fuel c delta ev).2 ev = poisson Φ fuel c ev :=
  ⟨rfl, rfl, rfl, rfl, rfl, rfl, rfl, rfl, rfl, rfl⟩

/-- **C4** (counterexample).  Under enabled overflow checks the plain
`state += initstate` in `srand` faults: with `initstate = 2 ^ 128 - 1` and
`initseq = 0` the intermediate state is `1`, and `1 + (2 ^ 128 - 1)`
overflows `u128`, contradicting "never a fault on overflow for any
input". -/
theorem srand_overflow_fault :
    srandChecked OrangeyCtx.new (2 ^ 128 - 1) 0 = none := by decide

/-- **C4** (amended).  The explicitly wrapping operations (`step`, `skip`,
and the wrapping model of `srand`) always reduce modulo `2 ^ 128` and never
fault, but srand's `state += initstate` and peek's `delta + 1` are plain
(checked-in-debug) additions: `srandChecked` succeeds, agreeing with the
wrapping model, exactly when `((initseq << 1) | 1) + initstate < 2 ^ 128`,
and `peekChecked` succeeds, agreeing with the wrapping `peek`, exactly when
`delta + 1 < 2 ^ 128`; outside those ranges the checked additions fault. -/
theorem arithmetic_wraps_amended :
    (∀ c : OrangeyCtx, ∀ s q : Nat,
      (srandChecked c s q = none ↔ 2 ^ 128 ≤ ((q <<< 1) % 2 ^ 128 ||| 1) + s) ∧
      (((q <<< 1) % 2 ^ 128 ||| 1) + s < 2 ^ 128 →
        srandChecked c s q = some (srand c s q))) ∧
    (∀ c : OrangeyCtx, ∀ d : Nat,
      (d + 1 < 2 ^ 128 → peekChecked c d = some (peek c d)) ∧
      peekChecked c (2 ^ 128 - 1) = none) ∧
    (∀ c : OrangeyCtx, ∀ s q d : Nat,
      (step c).state < 2 ^ 128 ∧ (skip c d).state < 2 ^ 128 ∧
      (srand c s q).state < 2 ^ 128) := by
  refine ⟨?_, ?_, ?_⟩
  · intro c s q
    have hlt : (q <<< 1) % 2 ^ 128 ||| 1 < 2 ^ 128 :=
      Nat.or_lt_two_pow (Nat.mod_lt _ (by norm_num)) (by norm_num)
    have hc1 : (0 * MUL + ((q <<< 1) % 2 ^ 128 ||| 1)) % 2 ^ 128
        = (q <<< 1) % 2 ^ 128 ||| 1 := by
      rw [Nat.zero_mul, Nat.zero_add]
      exact Nat.mod_eq_of_lt hlt
    constructor
    · simp only [srandChecked, step, hc1]
      split_ifs with hcond
      · simp only [reduceCtorEq, false_iff]
        omega
      · simp only [true_iff]
        omega
    · intro hsum
      simp only [srandChecked, srand, step, hc1]
      rw [if_pos hsum, Nat.mod_eq_of_lt hsum]
  · intro c d
    constructor
    · intro hlt
      simp only [peekChecked]
      rw [if_pos hlt]
    · simp only [peekChecked]
      rw [if_neg (by omega)]
  · intro c s q d
    exact ⟨Nat.mod_lt _ (by norm_num), Nat.mod_lt _ (by norm_num),
      Nat.mod_lt _ (by norm_num)⟩

/-- Witness for `arithmetic_wraps_amended` at concrete seeds. -/
theorem arithmetic_wraps_amended_witness :
    srandChecked OrangeyCtx.new 5 7 = some (srand OrangeyCtx.new 5 7) ∧
    peekChecked OrangeyCtx.new 5 = some (peek OrangeyCtx.new 5) :=
  ⟨(arithmetic_wraps_amended.1 OrangeyCtx.new 5 7).2 (by decide),
    (arithmetic_wraps_amended.2.1 OrangeyCtx.new 5).1 (by decide)⟩

/-! ### The `inc` invariant -/

theorem lor_one_mod_two (x : Nat) : (x ||| 1) % 2 = 1 := by
  have h : (x ||| 1).testBit 0 = true := by
    rw [Nat.testBit_or]
    simp
  rw [Nat.testBit_to_div_mod] at h
  simp only [pow_zero, Nat.div_one, decide_eq_true_eq] at h
  exact h

theorem rand_range_inc (fuel : Nat) (c : OrangeyCtx) (a b v : Nat) (c2 : OrangeyCtx)
    (h : rand_range fuel c a b = some (v, c2)) : c2.inc = c.inc := by
  unfold rand_range at h
  by_cases h1 : b = a
  · rw [if_pos h1] at h
    simp only [Option.some.injEq, Prod.mk.injEq] at h
    rw [← h.2]
  · rw [if_neg h1] at h
    by_cases h2 : count_ones64 (sub64 b a) = 1
    · rw [if_pos h2] at h
      simp only [Option.some.injEq, Prod.mk.injEq] at h
      rw [← h.2]
      rfl
    · rw [if_neg h2] at h
      cases hloop : rand_range_loop c (sub64 0 (sub64 b a) % sub64 b a) fuel 0 with
      | none =>
        simp only [hloop, Option.map_none'] at h
        cases h
      | some r =>
        simp only [hloop, Option.map_some', Option.some.injEq, Prod.mk.injEq] at h
        rw [← h.2]

theorem all_doubles_loop_inc : ∀ (fuel : Nat) (e : Int) (c : OrangeyCtx)
    (d : ADraw) (e2 : Int) (c2 : OrangeyCtx),
    all_doubles_loop fuel e c = some (d, e2, c2) → c2.inc = c.inc := by
  intro fuel
  induction fuel with
  | zero => intro e c d e2 c2 h; cases h
  | succ fuel ih =>
    intro e c d e2 c2 h
    rw [all_doubles_loop] at h
    by_cases h1 : e - 64 < -1074
    · rw [if_pos h1] at h
      simp only [Option.some.injEq, Prod.mk.injEq] at h
      rw [← h.2.2]
    · rw [if_neg h1] at h
      by_cases h2 : (rand c).1 ≠ 0
      · rw [if_pos h2] at h
        simp only [Option.some.injEq, Prod.mk.injEq] at h
        rw [← h.2.2]
        rfl
      · rw [if_neg h2] at h
        exact (ih _ _ _ _ _ h).trans rfl

theorem all_doubles_core_inc (fuel : Nat) (c : OrangeyCtx) (o : AllDblOut)
    (c2 : OrangeyCtx) (h : all_doubles_core fuel c = some (o, c2)) :
    c2.inc = c.inc := by
  unfold all_doubles_core at h
  cases hloop : all_doubles_loop fuel (-64) c with
  | none =>
    simp only [hloop, Option.map_none'] at h
    cases h
  | some r =>
    obtain ⟨d, e2, c1⟩ := r
    have hinc := all_doubles_loop_inc fuel (-64) c d e2 c1 hloop
    cases d with
    | retZero =>
      simp only [hloop, Option.map_some', Option.some.injEq, Prod.mk.injEq] at h
      rw [← h.2]
      exact hinc
    | found significand =>
      simp only [hloop, Option.map_some', Option.some.injEq, Prod.mk.injEq] at h
      rw [← h.2]
      exact hinc

theorem all_doubles_inc {F : Type} (Φ : FloatOps F) (fuel : Nat) (c : OrangeyCtx)
    (v : F) (c2 : OrangeyCtx) (h : all_doubles Φ fuel c = some (v, c2)) :
    c2.inc = c.inc := by
  unfold all_doubles at h
  cases hcore : all_doubles_core fuel c with
  | none =>
    simp only [hcore, Option.map_none'] at h
    cases h
  | some r =>
    obtain ⟨o, c1⟩ := r
    have hinc := all_doubles_core_inc fuel c o c1 hcore
    cases o with
    | zero =>
      simp only [hcore, Option.map_some', Option.some.injEq, Prod.mk.injEq] at h
      rw [← h.2]
      exact hinc
    | sig s e =>
      simp only [hcore, Option.map_some', Option.some.injEq, Prod.mk.injEq] at h
      rw [← h.2]
      exact hinc

theorem gaussian_loop_inc {F : Type} (Φ : FloatOps F) : ∀ (fuel : Nat)
    (c : OrangeyCtx) (v : F) (c2 : OrangeyCtx),
    gaussian_loop Φ fuel c = some (v, c2) → c2.inc = c.inc := by
  intro fuel
  induction fuel with
  | zero => intro c v c2 h; cases h
  | succ fuel ih =>
    intro c v c2 h
    rw [gaussian_loop] at h
    by_cases h1 : Φ.beq (uniform_double Φ c).1 Φ.lit0 = true
    · rw [if_pos h1] at h
      exact (ih _ _ _ h).trans rfl
    · rw [if_neg h1] at h
      simp only [Option.some.injEq] at h
      have h2 : (uniform_double Φ c).2 = c2 := congrArg Prod.snd h
      rw [← h2]
      rfl

theorem gaussian_inc {F : Type} (Φ : FloatOps F) (fuel : Nat) (c : OrangeyCtx)
    (v : F) (c2 : OrangeyCtx) (h : gaussian Φ fuel c = some (v, c2)) :
    c2.inc = c.inc := by
  unfold gaussian at h
  cases hloop : gaussian_loop Φ fuel c with
  | none =>
    simp only [hloop, Option.map_none'] at h
    cases h
  | some p =>
    simp only [hloop, Option.map_some', Option.some.injEq, Prod.mk.injEq] at h
    rw [← h.2]
    exact gaussian_loop_inc Φ fuel c p.1 p.2 (by rw [hloop])

theorem poisson_inc {F : Type} (Φ : FloatOps F) (fuel : Nat) (c : OrangeyCtx)
    (ev : F) (n : Nat) (c2 : OrangeyCtx) (h : poisson Φ fuel c ev = some (n, c2)) :
    c2.inc = c.inc := by
  unfold poisson at h
  cases hloop : poisson_loop Φ (uniform_double Φ c).2 (Φ.exp (Φ.neg ev)) fuel
      (uniform_double Φ c).1 0 with
  | none =>
    simp only [hloop, Option.map_none'] at h
    cases h
  | some m =>
    simp only [hloop, Option.map_some', Option.some.injEq, Prod.mk.injEq] at h
    rw [← h.2]
    rfl

/-- **C8.** `inc` is odd in every reachable generator instance: `new` sets
it to an odd constant, `srand` forces the low bit with `| 1` for every
`initseq`, and no other operation (`step`, `rand`, `skip`, `peek`, or any
sampler) modifies `inc`. -/
theorem inc_always_odd :
    (∀ c : OrangeyCtx, Reachable c → c.inc % 2 = 1) ∧
    (∀ c : OrangeyCtx, ∀ s q : Nat, (srand c s q).inc % 2 = 1) ∧
    (∀ c : OrangeyCtx, ∀ d : Nat, (step c).inc = c.inc ∧ (skip c d).inc = c.inc ∧
      (rand c).2.inc = c.inc ∧ (peekSt c d).2.inc = c.inc) := by
  refine ⟨?_, ?_, ?_⟩
  · intro c h
    induction h with
    | new => decide
    | srand c0 s q _ _ => exact lor_one_mod_two _
    | rand c0 _ ih => exact ih
    | skip c0 d _ ih => exact ih
    | rand_range fuel c0 a b v c2 _ hr ih =>
      rw [rand_range_inc fuel c0 a b v c2 hr]; exact ih
    | uniform_double Φ c0 _ ih => exact ih
    | all_doubles Φ fuel c0 v c2 _ hr ih =>
      rw [all_doubles_inc Φ fuel c0 v c2 hr]; exact ih
    | gaussian Φ fuel c0 v c2 _ hr ih =>
      rw [gaussian_inc Φ fuel c0 v c2 hr]; exact ih
    | poisson Φ fuel c0 ev n c2 _ hr ih =>
      rw [poisson_inc Φ fuel c0 ev n c2 hr]; exact ih
  · intro c s q
    exact lor_one_mod_two _
  · intro c d
    exact ⟨rfl, rfl, rfl, rfl⟩

/-- Witness for `inc_always_odd` at the default generator. -/
theorem inc_always_odd_witness : OrangeyCtx.new.inc % 2 = 1 :=
  inc_always_odd.1 OrangeyCtx.new Reachable.new

/-! ### Range bounds and the uniform_double value -/

theorem output_lt (s : Nat) : output s < 2 ^ 64 :=
  Nat.mod_lt _ (by norm_num)

theorem sub64_of_le (start stop : Nat) (hle : start ≤ stop) (hstop : stop < 2 ^ 64) :
    sub64 stop start = stop - start := by
  unfold sub64
  omega

/-- **C6.** For `start ≤ stop < 2 ^ 64`: a degenerate range returns
`start` itself (no fault), and on both the power-of-two fast path and the
rejection path every returned value `v` satisfies `start ≤ v < stop`. -/
theorem rand_range_bounds (fuel : Nat) (c : OrangeyCtx) (start stop v : Nat)
    (c2 : OrangeyCtx) (hle : start ≤ stop) (hstop : stop < 2 ^ 64)
    (h : rand_range fuel c start stop = some (v, c2)) :
    (start = stop → v = start) ∧ (start < stop → start ≤ v ∧ v < stop) := by
  unfold rand_range at h
  by_cases h1 : stop = start
  · rw [if_pos h1] at h
    simp only [Option.some.injEq, Prod.mk.injEq] at h
    subst h1
    exact ⟨fun _ => h.1.symm, fun hlt => absurd hlt (lt_irrefl _)⟩
  · rw [if_neg h1] at h
    have hd : sub64 stop start = stop - start := sub64_of_le start stop hle hstop
    refine ⟨fun heq => absurd heq.symm h1, fun _ => ?_⟩
    by_cases h2 : count_ones64 (sub64 stop start) = 1
    · rw [if_pos h2] at h
      simp only [Option.some.injEq, Prod.mk.injEq] at h
      rw [hd] at h
      have hmask : (rand c).1 &&& (stop - start - 1) ≤ stop - start - 1 :=
        Nat.and_le_right
      have hsum : ((rand c).1 &&& (stop - start - 1)) + start < 2 ^ 64 := by omega
      rw [← h.1, Nat.mod_eq_of_lt hsum]
      omega
    · rw [if_neg h2] at h
      cases hloop : rand_range_loop c (sub64 0 (sub64 stop start) % sub64 stop start)
          fuel 0 with
      | none =>
        simp only [hloop, Option.map_none'] at h
        cases h
      | some r =>
        simp only [hloop, Option.map_some', Option.some.injEq, Prod.mk.injEq] at h
        rw [hd] at h
        have hr : r % (stop - start) < stop - start := Nat.mod_lt _ (by omega)
        have hsum : r % (stop - start) + start < 2 ^ 64 := by omega
        rw [← h.1, Nat.mod_eq_of_lt hsum]
        omega

/-- Witness for `rand_range_bounds`: default generator, range `3..10`
(width 7, rejection path). -/
theorem rand_range_bounds_witness :
    ((3 : Nat) = 10 → (6 : Nat) = 3) ∧ ((3 : Nat) < 10 → 3 ≤ 6 ∧ 6 < 10) :=
  rand_range_bounds 1 OrangeyCtx.new 3 10 6 OrangeyCtx.new (by decide) (by decide)
    (by decide)

/-- **C9.** `uniform_double()` masks one raw draw to a 52-bit significand
`m`, ORs in the exponent bits of `1.0` giving the bit pattern of the exact
value `1 + m * 2 ^ (-52) ∈ [1, 2)`, and subtracts `1.0` (exact, since
`m * 2 ^ (-52)` is itself representable): the result is `m * 2 ^ (-52)`,
an integer multiple of `2 ^ (-52)` in `[0, 1)`. -/
theorem uniform_double_value (c : OrangeyCtx) :
    ∃ m : Nat, m < 2 ^ 52 ∧ (uniform_double QF c).1 = (m : ℚ) / 2 ^ 52 ∧
      0 ≤ (uniform_double QF c).1 ∧ (uniform_double QF c).1 < 1 := by
  have hmlt : (rand c).1 &&& MASK < 2 ^ 52 := by
    have h1 : (rand c).1 &&& MASK ≤ MASK := Nat.and_le_right
    have h2 : MASK < 2 ^ 52 := by decide
    omega
  have hbits : ((rand c).1 &&& MASK) ||| S_EXP = 2 ^ 52 * 1023 + ((rand c).1 &&& MASK) := by
    rw [Nat.lor_comm]
    have hS : S_EXP = 2 ^ 52 * 1023 := by decide
    rw [hS]
    exact (Nat.mul_add_lt_is_or hmlt 1023).symm
  have hval : (uniform_double QF c).1
      = f64FromBits (2 ^ 52 * 1023 + ((rand c).1 &&& MASK)) - 1 := by
    show QF.sub (QF.fromBits (((rand c).1 &&& MASK) ||| S_EXP)) QF.lit1 = _
    rw [hbits]
    rfl
  have hdecode : f64FromBits (2 ^ 52 * 1023 + ((rand c).1 &&& MASK))
      = ((2 ^ 52 + ((rand c).1 &&& MASK) : Nat) : ℚ) / 2 ^ 52 := by
    unfold f64FromBits
    have hsign : (2 ^ 52 * 1023 + ((rand c).1 &&& MASK)) >>> 63 = 0 := by
      rw [Nat.shiftRight_eq_div_pow]
      apply Nat.div_eq_of_lt
      omega
    have he : (2 ^ 52 * 1023 + ((rand c).1 &&& MASK)) >>> 52 % 2 ^ 11 = 1023 := by
      rw [Nat.shiftRight_eq_div_pow]
      have hq : (2 ^ 52 * 1023 + ((rand c).1 &&& MASK)) / 2 ^ 52 = 1023 := by omega
      rw [hq]
      decide
    have hm : (2 ^ 52 * 1023 + ((rand c).1 &&& MASK)) % 2 ^ 52 = (rand c).1 &&& MASK := by
      omega
    rw [hsign, he, hm]
    norm_num
  refine ⟨(rand c).1 &&& MASK, hmlt, ?_, ?_, ?_⟩
  · rw [hval, hdecode]
    have hcast : ((2 ^ 52 + ((rand c).1 &&& MASK) : Nat) : ℚ)
        = 2 ^ 52 + (((rand c).1 &&& MASK : Nat) : ℚ) := by push_cast; ring
    rw [hcast, add_div, div_self (by positivity : (2 : ℚ) ^ 52 ≠ 0)]
    ring
  · rw [hval, hdecode]
    have h1 : ((2 ^ 52 + ((rand c).1 &&& MASK) : Nat) : ℚ) / 2 ^ 52 ≥ 1 := by
      rw [ge_iff_le, le_div_iff₀ (by positivity : (0 : ℚ) < 2 ^ 52), one_mul]
      exact_mod_cast Nat.le_add_right (2 ^ 52) _
    linarith
  · rw [hval, hdecode]
    have h1 : ((2 ^ 52 + ((rand c).1 &&& MASK) : Nat) : ℚ) / 2 ^ 52 < 2 := by
      rw [div_lt_iff₀ (by positivity : (0 : ℚ) < 2 ^ 52)]
      have : ((2 ^ 52 + ((rand c).1 &&& MASK) : Nat) : ℚ) < 2 ^ 52 + 2 ^ 52 := by
        have := hmlt
        push_cast
        exact_mod_cast by omega
      linarith [this]
    linarith

/-! ### all_doubles: every output is below `2 ^ (-64)` -/

theorem all_doubles_loop_exp : ∀ (fuel : Nat) (e : Int) (c : OrangeyCtx)
    (d : ADraw) (e2 : Int) (c2 : OrangeyCtx),
    all_doubles_loop fuel e c = some (d, e2, c2) → e2 ≤ e - 64 := by
  intro fuel
  induction fuel with
  | zero => intro e c d e2 c2 h; cases h
  | succ fuel ih =>
    intro e c d e2 c2 h
    rw [all_doubles_loop] at h
    by_cases h1 : e - 64 < -1074
    · rw [if_pos h1] at h
      simp only [Option.some.injEq, Prod.mk.injEq] at h
      omega
    · rw [if_neg h1] at h
      by_cases h2 : (rand c).1 ≠ 0
      · rw [if_pos h2] at h
        simp only [Option.some.injEq, Prod.mk.injEq] at h
        omega
      · rw [if_neg h2] at h
        have := ih _ _ _ _ _ h
        omega

theorem all_doubles_loop_sig_lt : ∀ (fuel : Nat) (e : Int) (c : OrangeyCtx)
    (s : Nat) (e2 : Int) (c2 : OrangeyCtx),
    all_doubles_loop fuel e c = some (.found s, e2, c2) → s < 2 ^ 64 := by
  intro fuel
  induction fuel with
  | zero => intro e c s e2 c2 h; cases h
  | succ fuel ih =>
    intro e c s e2 c2 h
    rw [all_doubles_loop] at h
    by_cases h1 : e - 64 < -1074
    · rw [if_pos h1] at h
      simp only [Option.some.injEq, Prod.mk.injEq] at h
      cases h.1
    · rw [if_neg h1] at h
      by_cases h2 : (rand c).1 ≠ 0
      · rw [if_pos h2] at h
        simp only [Option.some.injEq, Prod.mk.injEq, ADraw.found.injEq] at h
        rw [← h.1]
        exact output_lt _
      · rw [if_neg h2] at h
        exact ih _ _ _ _ _ h

/-- **C5** (refuted: code bug).  `all_doubles` decrements the exponent
*before* the first draw (the reference algorithm decrements it only after
a zero draw), so every non-zero result has `exponent ≤ -128` and
`significand < 2 ^ 64`: its exact value `significand * 2 ^ exponent` is
below `2 ^ (-64)`.  Doubles in `[2 ^ (-64), 1)` — for example `0.5` — can
never be returned, contradicting both the claim and the function's own
documentation that every representable double in `[0, 1)` is a possible
output (the `[0, 1)` membership itself does hold). -/
theorem all_doubles_exponent_bound (fuel : Nat) (c : OrangeyCtx) (s : Nat)
    (e : Int) (c2 : OrangeyCtx) (h : all_doubles_core fuel c = some (.sig s e, c2)) :
    e ≤ -128 ∧ s < 2 ^ 64 ∧ (s : ℚ) * (2 : ℚ) ^ e < (2 : ℚ) ^ (-64 : ℤ) := by
  unfold all_doubles_core at h
  cases hloop : all_doubles_loop fuel (-64) c with
  | none =>
    simp only [hloop, Option.map_none'] at h
    cases h
  | some r =>
    obtain ⟨d, e1, c1⟩ := r
    have hexp := all_doubles_loop_exp fuel (-64) c d e1 c1 hloop
    cases d with
    | retZero =>
      simp only [hloop, Option.map_some', Option.some.injEq, Prod.mk.injEq] at h
      cases h.1
    | found significand =>
      have hsig : significand < 2 ^ 64 :=
        all_doubles_loop_sig_lt fuel (-64) c significand e1 c1 hloop
      simp only [hloop, Option.map_some', Option.some.injEq, Prod.mk.injEq,
        AllDblOut.sig.injEq] at h
      obtain ⟨⟨hs, he⟩, _⟩ := h
      have hebound : e ≤ -128 := by
        rw [← he]
        by_cases hshift : clz64 significand ≠ 0
        · rw [if_pos hshift]
          have : (0 : Int) ≤ (clz64 significand : Int) := Int.natCast_nonneg _
          omega
        · rw [if_neg hshift]
          omega
      have hslt : s < 2 ^ 64 := by
        rw [← hs]
        by_cases hshift : clz64 significand ≠ 0
        · rw [if_pos hshift]
          refine Nat.or_lt_two_pow (Nat.or_lt_two_pow ?_ ?_) (by norm_num)
          · exact Nat.mod_lt _ (by norm_num)
          · calc peek c1 1 >>> (64 - clz64 significand)
                ≤ peek c1 1 := by
                  rw [Nat.shiftRight_eq_div_pow]
                  exact Nat.div_le_self _ _
              _ < 2 ^ 64 := output_lt _
        · rw [if_neg hshift]
          exact Nat.or_lt_two_pow hsig (by norm_num)
      refine ⟨hebound, hslt, ?_⟩
      have hcast : (s : ℚ) < (2 : ℚ) ^ (64 : ℕ) := by exact_mod_cast hslt
      have hzpos : (0 : ℚ) < (2 : ℚ) ^ e := zpow_pos (by norm_num) e
      have hstep1 : (s : ℚ) * (2 : ℚ) ^ e < (2 : ℚ) ^ (64 : ℕ) * (2 : ℚ) ^ e :=
        mul_lt_mul_of_pos_right hcast hzpos
      have hstep2 : (2 : ℚ) ^ (64 : ℕ) * (2 : ℚ) ^ e
          ≤ (2 : ℚ) ^ (64 : ℕ) * (2 : ℚ) ^ (-128 : ℤ) := by
        refine mul_le_mul_of_nonneg_left ?_ (by positivity)
        exact zpow_le_zpow_right₀ (by norm_num) hebound
      have hstep3 : (2 : ℚ) ^ (64 : ℕ) * (2 : ℚ) ^ (-128 : ℤ) = (2 : ℚ) ^ (-64 : ℤ) := by
        rw [← zpow_natCast (2 : ℚ) 64, ← zpow_add₀ (by norm_num : (2 : ℚ) ≠ 0)]
        norm_num
      calc (s : ℚ) * (2 : ℚ) ^ e
          < (2 : ℚ) ^ (64 : ℕ) * (2 : ℚ) ^ e := hstep1
        _ ≤ (2 : ℚ) ^ (64 : ℕ) * (2 : ℚ) ^ (-128 : ℤ) := hstep2
        _ = (2 : ℚ) ^ (-64 : ℤ) := hstep3

/-- Witness for `all_doubles_exponent_bound`: with the default generator
the first draw is nonzero and the returned exponent is already `-128`. -/
theorem all_doubles_exponent_bound_witness :
    (-128 : Int) ≤ -128 ∧ (18017628057179154149 : Nat) < 2 ^ 64 ∧
      ((18017628057179154149 : Nat) : ℚ) * (2 : ℚ) ^ (-128 : ℤ) < (2 : ℚ) ^ (-64 : ℤ) :=
  all_doubles_exponent_bound 20 OrangeyCtx.new 18017628057179154149 (-128)
    (step OrangeyCtx.new) (by decide)

end Orangey
